import Mathlib

/-!
Shallow embedding of the `cucumber` evaluation core (dos-group/cucumber,
directory `src/evaluation`): time-step rounding (`util.py`), the capacity
table and `ResourceManager` (`resource_manager.py`), `Job` and `Queue`
(`job.py`), the execution scheduler body (`processes/execution.py`) and the
admission controller (`processes/admission_control.py`).

Datetimes are rationals counting seconds; `TIME_STEP = 10` minutes becomes
`stepSecs = 600` seconds.  Capacities (millicore-hours) are rationals.
Python calls that can raise (assertions, missing table keys, attribute
errors) are embedded as `Option`, with `none` for an aborted run.
-/

set_option allowUnsafeReducibility true in
attribute [semireducible] Rat.mul Rat.add Rat.sub Rat.inv Rat.div

namespace Cucumber

/-- Seconds in one scheduling time step (`TIME_STEP = 10` minutes). -/
def stepSecs : ℚ := 600

/-- Embedding of `util.round_down_dt`: rounds a datetime down to the last
time-step boundary. -/
def round_down_dt (t : ℚ) : ℚ := stepSecs * (⌊t / stepSecs⌋ : ℚ)

/-- Embedding of `util.round_up_dt`: rounds a datetime up to the next
time-step boundary (always strictly later for boundary inputs, as in the
source, which adds a full step to the rounded-down value). -/
def round_up_dt (t : ℚ) : ℚ := round_down_dt t + stepSecs

/-- Index of the table row (capacity-table key) that `round_up_dt t` points
at; row `k` stands for the key `stepSecs * k`, so the step containing `t`
is the row `⌊t / stepSecs⌋ + 1`. -/
def stepIdx (t : ℚ) : ℤ := ⌊t / stepSecs⌋ + 1

/-- Row of the capacity table `U` (`resource_manager.py`): free capacity
powered by renewable excess (`u_freep`), total free capacity (`u_free`),
renewable-excess capacity (`u_reep`) and consumed capacity (`u_used`). -/
structure URow where
  u_freep : ℚ
  u_free : ℚ
  u_reep : ℚ
  u_used : ℚ
deriving DecidableEq

/-- Embedding of `ResourceManager`: the capacity table is a contiguous run
of rows; the row for key index `k` (datetime `stepSecs * k`) is
`rows[k - firstIdx]`. -/
structure ResourceManager where
  firstIdx : ℤ
  rows : List URow
deriving DecidableEq

/-- Key index of the last row of the table. -/
def ResourceManager.lastIdx (rm : ResourceManager) : ℤ :=
  rm.firstIdx + rm.rows.length - 1

/-- Label lookup `u.loc[key]`; `none` models the `KeyError` a missing key
raises. -/
def ResourceManager.lookup (rm : ResourceManager) (k : ℤ) : Option URow :=
  if k < rm.firstIdx then none else rm.rows[(k - rm.firstIdx).toNat]?

/-- Embedding of `ResourceManager.u_now`: the freep and free capacity still
available at the step containing `now` (table values minus `u_used`). -/
def ResourceManager.u_now (rm : ResourceManager) (now : ℚ) : Option (ℚ × ℚ) :=
  (rm.lookup (stepIdx now)).map fun r => (r.u_freep - r.u_used, r.u_free - r.u_used)

/-- Embedding of `ResourceManager.u_used`: consumed capacity at the step
containing `now`. -/
def ResourceManager.u_used (rm : ResourceManager) (now : ℚ) : Option ℚ :=
  (rm.lookup (stepIdx now)).map fun r => r.u_used

/-- Label slice `u.loc[a:b]` on the contiguous table: the rows whose key
index lies in `[a, b]` (pandas label slicing includes both endpoints). -/
def ResourceManager.slice (rm : ResourceManager) (a b : ℤ) : List URow :=
  let lo := max a rm.firstIdx
  (rm.rows.drop (lo - rm.firstIdx).toNat).take (b - lo + 1).toNat

/-- Column sums `df.sum(axis=0)` of a two-column frame. -/
def sumPairs (l : List (ℚ × ℚ)) : ℚ × ℚ :=
  ((l.map Prod.fst).sum, (l.map Prod.snd).sum)

/-- In-place scaling `df.iloc[-1] *= c` of the last row of a two-column
frame. -/
def scaleLastPair (c : ℚ) : List (ℚ × ℚ) → List (ℚ × ℚ)
  | [] => []
  | [p] => [(c * p.1, c * p.2)]
  | p :: q :: rest => p :: scaleLastPair c (q :: rest)

/-- Embedding of `ResourceManager.u_in_daterange`: slice the table between
`round_up_dt start` and `round_up_dt stop`, subtract `u_used` from the
`u_freep` and `u_free` columns, scale the last row by the fraction of the
final step covered, and sum; `(0, 0)` when the slice has at most one row. -/
def ResourceManager.u_in_daterange (rm : ResourceManager) (start stop : ℚ) : ℚ × ℚ :=
  let df := rm.slice (stepIdx start) (stepIdx stop)
  let rem := df.map fun r => (r.u_freep - r.u_used, r.u_free - r.u_used)
  let last_fraction := (stop - round_down_dt stop) / stepSecs
  if 1 < rem.length then sumPairs (scaleLastPair last_fraction rem) else (0, 0)

/-- Embedding of `ResourceManager.notify_usage`: add `amount` to the
`u_used` column at the step containing `now`, then run the sanity
assertion `u_now(now)[1] >= 0` on the already-updated table.  The returned
flag is `false` when the assertion fires (the Python call raises after
having mutated the table); `none` models the `KeyError` of a missing
key. -/
def ResourceManager.notify_usage (rm : ResourceManager) (now : ℚ) (amount : ℚ) :
    Option (ResourceManager × Bool) :=
  match rm.lookup (stepIdx now) with
  | none => none
  | some r =>
    let r' : URow := { r with u_used := r.u_used + amount }
    let rm' : ResourceManager :=
      { rm with rows := rm.rows.set (stepIdx now - rm.firstIdx).toNat r' }
    match rm'.u_now now with
    | none => none
    | some uf => some (rm', decide (0 ≤ uf.2))

/-- Invariant of the capacity table: consumed capacity never exceeds total
free capacity in any row (`u_free - u_used ≥ 0` everywhere). -/
def ResourceManager.invariant (rm : ResourceManager) : Prop :=
  ∀ r ∈ rm.rows, r.u_used ≤ r.u_free

instance (rm : ResourceManager) : Decidable rm.invariant := by
  unfold ResourceManager.invariant; infer_instance

/-- Runs a sequence of `notify_usage` calls, requiring every one of them to
pass the sanity assertion (`none` as soon as one fails or a key is
missing). -/
def notifySeq (rm : ResourceManager) : List (ℚ × ℚ) → Option ResourceManager
  | [] => some rm
  | (t, a) :: rest =>
    match rm.notify_usage t a with
    | some (rm', true) => notifySeq rm' rest
    | _ => none

/-- Embedding of `Job` (`job.py`): identifier, arrival, total and remaining
size in millicore-hours, deadline, admission flag and the time up to which
the job has been processed. -/
structure Job where
  id : ℕ
  arrive_time : ℚ
  size : ℚ
  size_remaining : ℚ
  deadline : ℚ
  accepted : Option Bool := none
  last_processed : Option ℚ := none
deriving DecidableEq

/-- Embedding of `Job.finished`: all work done. -/
def Job.finished (j : Job) : Prop := j.size_remaining = 0

instance (j : Job) : Decidable j.finished := by
  unfold Job.finished; infer_instance

/-- Embedding of `Job.finish_time`: the last-processed time once the job is
finished, `none` while it is still running. -/
def Job.finish_time (j : Job) : Option ℚ :=
  if j.finished then j.last_processed else none

/-- Embedding of `Job.finished_before_deadline`; `none` models the
`ValueError` raised on an unfinished job (and the type error of comparing
a never-processed job's `None` against the deadline). -/
def Job.finished_before_deadline (j : Job) : Option Bool :=
  if j.finished then j.last_processed.map fun t => decide (t ≤ j.deadline)
  else none

/-- Round-half-to-even on rationals, the rounding `pandas.Timedelta.round`
applies when `Job.run_for` rounds a duration to whole seconds. -/
def roundHalfEven (q : ℚ) : ℤ :=
  if q - ⌊q⌋ < 1 / 2 then ⌊q⌋
  else if 1 / 2 < q - ⌊q⌋ then ⌊q⌋ + 1
  else if ⌊q⌋ % 2 = 0 then ⌊q⌋ else ⌊q⌋ + 1

/-- Embedding of `Job.run_for`: execute the job for `size` millicore-hours
or until `end_time`.  Returns the excess capacity, the duration the job
ran, and the updated job; `none` models the failed `assert size > 0`. -/
def Job.run_for (j : Job) (size : ℚ) (start_time end_time : ℚ) :
    Option (ℚ × ℚ × Job) :=
  if size ≤ 0 then none
  else
    let size_remaining := j.size_remaining - size
    if 0 < size_remaining then
      let duration := end_time - start_time
      some (0, duration,
        { j with size_remaining := size_remaining,
                 last_processed := some (start_time + duration) })
    else
      let size_excess := -size_remaining
      let used_capacity_fraction := j.size_remaining / size
      let duration : ℚ := (roundHalfEven ((end_time - start_time) * used_capacity_fraction) : ℚ)
      some (size_excess, duration,
        { j with size_remaining := 0,
                 last_processed := some (start_time + duration) })

/-- Embedding of `_expected_deadline_violation`
(`processes/execution.py`): the job is expected to miss its deadline when
the deadline already passed, or when the free-renewable capacity over
`[now, deadline)` is below its remaining work. -/
def expected_deadline_violation (now : ℚ) (j : Job) (rm : ResourceManager) : Bool :=
  if j.deadline < now then true
  else if (rm.u_in_daterange now j.deadline).1 < j.size_remaining then true
  else false

/-- Capacity the execution scheduler grants the active job for the step at
`now` (lines 38-41 of `processes/execution.py`): the renewable-limited
`u_freep`, overridden to the total free capacity `u_free` when not
simulated and a deadline violation is expected. -/
def chosenCapacity (simulated : Bool) (j : Job) (rm : ResourceManager) (now : ℚ) :
    Option ℚ :=
  (rm.u_now now).map fun uf =>
    if !simulated && expected_deadline_violation now j rm then uf.2 else uf.1

/-- One iteration of the inner `while not job.finished` loop of
`execution_process`, from the `u_now` query up to (but not including) the
`yield` that ends the iteration: run the job on the chosen capacity until
the next step boundary and account the consumed capacity, or idle until
the next boundary (stamping `last_processed` only when not simulated).
Returns the updated job, the updated resource manager, and the simulated
time at which the process resumes; `none` models an aborted run (missing
table key or failed assertion). -/
def execBody (simulated : Bool) (j : Job) (rm : ResourceManager) (now : ℚ) :
    Option (Job × ResourceManager × ℚ) :=
  match rm.u_now now with
  | none => none
  | some (u_freep, u_free) =>
    let cap := if !simulated && expected_deadline_violation now j rm then u_free
               else u_freep
    if 0 < cap then
      match j.run_for cap now (round_up_dt now) with
      | none => none
      | some (size_excess, duration, j') =>
        match rm.notify_usage now (cap - size_excess) with
        | some (rm', true) => some (j', rm', now + duration)
        | _ => none
    else
      some (if simulated then j else { j with last_processed := some now },
            rm, round_up_dt now)

/-- Runs one dequeued job to completion (the inner loop of
`execution_process`), with the event loop's `run(until=horizon)` cut-off:
an iteration whose resume time reaches `horizon` is never resumed, so the
loop stops with the mutations of that iteration already applied and the
reported time pinned at the horizon (the returned flag records that the
horizon was hit).  `none` models an aborted run or exhausted fuel. -/
def runJob : ℕ → Bool → Job → ResourceManager → ℚ → ℚ →
    Option (Job × ResourceManager × ℚ × Bool)
  | 0, _, _, _, _, _ => none
  | fuel + 1, simulated, j, rm, t, horizon =>
    if j.finished then some (j, rm, t, false)
    else
      match execBody simulated j rm t with
      | none => none
      | some (j', rm', t') =>
        if horizon ≤ t' then some (j', rm', horizon, true)
        else runJob fuel simulated j' rm' t' horizon

/-- The speculative execution process of `_admission_control`: a fresh
event loop running `execution_process(..., simulated=True)` over a FIFO
queue of jobs until the horizon (`round_down_dt initial_time + 1 day` in
the caller).  Jobs are processed in queue order; when the horizon cuts the
run short the remaining queue is untouched; in simulated mode the process
returns by itself once the queue is empty.  Returns the final versions of
all queued jobs (the Python objects the caller's deadline check inspects),
the final forecast resource manager and the final simulated time. -/
def runSpecLoop (fuel : ℕ) : List Job → ResourceManager → ℚ → ℚ →
    Option (List Job × ResourceManager × ℚ)
  | [], rm, t, _ => some ([], rm, t)
  | j :: rest, rm, t, horizon =>
    match runJob fuel true j rm t horizon with
    | none => none
    | some (j', rm', t', halted) =>
      if halted then some (j' :: rest, rm', t')
      else if rest.isEmpty then some ([j'], rm', t')
      else
        match runSpecLoop fuel rest rm' t' horizon with
        | none => none
        | some (js, rm'', t'') => some (j' :: js, rm'', t'')

/-- Deadline check at the end of `_admission_control` (lines 114-125):
scan the queued jobs; `some false` as soon as one is unfinished or
finished after its deadline, `some true` when all pass, `none` when
`finished_before_deadline` raises. -/
def checkJobs : List Job → Option Bool
  | [] => some true
  | j :: rest =>
    if ¬j.finished then some false
    else
      match j.finished_before_deadline with
      | none => none
      | some false => some false
      | some true => checkJobs rest

/-- A job that would cause the admission check to reject: it is unfinished
after the speculative run, or it finished strictly after its deadline. -/
def missesDeadline (j : Job) : Prop :=
  ¬j.finished ∨ ∃ ft, j.finish_time = some ft ∧ j.deadline < ft

/-- Policy identifiers of the evaluation (`main.py` / `u_pred`). -/
inductive Policy
  | baseline1
  | baseline2
  | naive
  | expected
  | conservative
  | optimistic
deriving DecidableEq

/-- Row of the forecast dataset `u_df` for one target timestamp: actual and
predicted free capacity, and actual and predicted renewable-excess
capacity under the three prediction variants. -/
structure ForecastRow where
  u_free : ℚ
  u_free_pred : ℚ
  u_reep : ℚ
  u_reep_pred_expected : ℚ
  u_reep_pred_conservative : ℚ
  u_reep_pred_optimistic : ℚ
deriving DecidableEq

/-- The sub-frame `u_df.loc[issuance_date]`: a contiguous run of forecast
rows, the row for key index `k` being `rows[k - firstIdx]`. -/
structure ForecastFrame where
  firstIdx : ℤ
  rows : List ForecastRow
deriving DecidableEq

/-- The two-level-indexed forecast dataset: issuance datetime to sub-frame,
`none` modelling a missing issuance key. -/
def UDf : Type := ℚ → Option ForecastFrame

/-- Column selection of `u_pred`: which (`u_free`-like, `u_reep`-like)
columns each policy reads; `none` for `Naive`, whose `u_pred` raises
`ValueError` (`Unknown policy`). -/
def forecastCols : Policy → Option (ForecastRow → ℚ × ℚ)
  | Policy.baseline1 => some fun r => (r.u_free, r.u_reep)
  | Policy.baseline2 => some fun r => (r.u_free, r.u_reep)
  | Policy.expected => some fun r => (r.u_free_pred, r.u_reep_pred_expected)
  | Policy.conservative => some fun r => (r.u_free_pred, r.u_reep_pred_conservative)
  | Policy.optimistic => some fun r => (r.u_free_pred, r.u_reep_pred_optimistic)
  | Policy.naive => none

/-- Embedding of `u_pred` (`resource_manager.py`): build the forecast
capacity table used inside an admission decision.  Per policy it selects
the perfect or predicted columns, derives `u_freep` (the raw free value
for `Baseline 1`, otherwise the minimum of the two columns), zeroes
`u_used` and seeds the first row's `u_used` with the capacity already
consumed mid-step.  `none` models an unknown policy, a missing issuance
key, or an empty frame (for which `forecasts.index[0]` raises). -/
def u_pred (u_df : UDf) (policy : Policy) (start_date : ℚ) (initial_u_used : ℚ) :
    Option ResourceManager :=
  match forecastCols policy with
  | none => none
  | some cols =>
    match u_df start_date with
    | none => none
    | some frame =>
      let urows := frame.rows.map fun fr =>
        let c := cols fr
        let u_freep := if policy = Policy.baseline1 then c.1
                       else if c.1 ≤ c.2 then c.1 else c.2
        URow.mk u_freep c.1 c.2 0
      match urows with
      | [] => none
      | r0 :: rest => some ⟨frame.firstIdx, { r0 with u_used := initial_u_used } :: rest⟩

/-- Stable ascending sort by deadline, `queued_jobs.sort(key=lambda j:
j.deadline)`. -/
def sortByDeadline (l : List Job) : List Job :=
  l.insertionSort fun a b => a.deadline ≤ b.deadline

/-- Lines 72-82 of `_admission_control`: append the candidate to the copied
queue, sort by deadline, and either start from `now` with zero initial
used capacity (no active job) or put the copied active job at the front
and start from its `last_processed` time with the caller's initial used
capacity.  `none` models the crash of reading a `None` `last_processed`. -/
def admissionPrep (new_job : Job) (queued_jobs : List Job) (active_job : Option Job)
    (now : ℚ) (initial_u_used : ℚ) : Option (List Job × ℚ × ℚ) :=
  let sorted := sortByDeadline (queued_jobs ++ [new_job])
  match active_job with
  | none => some (sorted, now, 0)
  | some aj => aj.last_processed.map fun lp => (aj :: sorted, lp, initial_u_used)

/-- Lines 87-125 of `_admission_control`, after the queue has been prepared:
build the forecast `ResourceManager`, fast-reject when the summed
remaining work exceeds the forecast free-renewable capacity until the last
job's deadline minus the capacity already used, fast-accept when first and
last deadline agree, otherwise run the speculative simulation for at most
one day (86400 s) from the rounded-down start time and accept exactly when
every queued job finished before its deadline.  Besides the decision it
returns the final state of the mutated clone queue and clone resource
manager (which the Python caller simply drops). -/
def admissionDecide (fuel : ℕ) (queued_jobs : List Job) (initial_time : ℚ)
    (initial_u_used : ℚ) (policy : Policy) (u_df : UDf) :
    Option (Bool × List Job × ResourceManager) :=
  match u_pred u_df policy (round_down_dt initial_time) initial_u_used with
  | none => none
  | some frm =>
    match queued_jobs.getLast?, queued_jobs.head? with
    | some lastJ, some firstJ =>
      let remaining_queue_size := (queued_jobs.map fun j => j.size_remaining).sum
      let u_freep := (frm.u_in_daterange initial_time lastJ.deadline).1 - initial_u_used
      if remaining_queue_size > u_freep then some (false, queued_jobs, frm)
      else if firstJ.deadline = lastJ.deadline then some (true, queued_jobs, frm)
      else
        match runSpecLoop fuel queued_jobs frm initial_time
            (round_down_dt initial_time + 86400) with
        | none => none
        | some (jobs', frm', _) =>
          match checkJobs jobs' with
          | none => none
          | some dec => some (dec, jobs', frm')
    | _, _ => none

/-- Embedding of `_admission_control`: queue preparation followed by the
decision; the returned clone states model the objects the Python function
mutated and then dropped. -/
def admission_control (fuel : ℕ) (new_job : Job) (queued_jobs : List Job)
    (active_job : Option Job) (now : ℚ) (initial_u_used : ℚ) (policy : Policy)
    (u_df : UDf) : Option (Bool × List Job × ResourceManager) :=
  match admissionPrep new_job queued_jobs active_job now initial_u_used with
  | none => none
  | some (qj, t0, iu) => admissionDecide fuel qj t0 iu policy u_df

/-- Embedding of `Queue` (`job.py`): the live priority store's item list
plus the most recently dequeued job. -/
structure Queue where
  items : List Job
  last_returned_job : Option Job
deriving DecidableEq

/-- Embedding of `Queue.active_job`: the last returned job unless it
finished before the current time step.  The outer `Option` models the
crash of comparing a `None` `last_processed` of a finished job. -/
def Queue.active_job (q : Queue) (now : ℚ) : Option (Option Job) :=
  match q.last_returned_job with
  | none => some none
  | some j =>
    if j.finished then
      match j.last_processed with
      | none => none
      | some lp => if lp < round_down_dt now then some none else some (some j)
    else some (some j)

/-- The real, live state the admission controller must not disturb: the
runtime queue and the runtime resource manager. -/
structure RealState where
  queue : Queue
  rm : ResourceManager
deriving DecidableEq

/-- The non-`Naive` branch of `admission_control_process` (lines 43-51 of
`processes/admission_control.py`) up to and including the call to
`_admission_control`: the decision is computed from deep copies of the
arriving job, the queue items and the active job (value semantics here),
plus the read-only `u_used` of the real resource manager; the mutated
clones returned by the call are dropped.  Returns the decision together
with the real state and the original job as they stand after the call. -/
def admissionCall (fuel : ℕ) (policy : Policy) (u_df : UDf) (st : RealState)
    (job : Job) (now : ℚ) : Option (Bool × RealState × Job) :=
  match st.queue.active_job now with
  | none => none
  | some active =>
    match st.rm.u_used now with
    | none => none
    | some uu =>
      (admission_control fuel job st.queue.items active now uu policy u_df).map
        fun r => (r.1, st, job)

/-! Helper lemmas about the capacity table. -/

/-- A row found by `lookup` is a row of the table. -/
theorem ResourceManager.mem_of_lookup {rm : ResourceManager} {k : ℤ} {r : URow}
    (h : rm.lookup k = some r) : r ∈ rm.rows := by
  unfold ResourceManager.lookup at h
  split at h
  · exact absurd h (by simp)
  · exact List.getElem?_mem h

/-- Updating the row that `lookup` finds is visible to the next `lookup`. -/
theorem ResourceManager.lookup_set {rm : ResourceManager} {k : ℤ} {r : URow}
    (r' : URow) (h : rm.lookup k = some r) :
    ResourceManager.lookup ⟨rm.firstIdx, rm.rows.set (k - rm.firstIdx).toNat r'⟩ k
      = some r' := by
  unfold ResourceManager.lookup at h ⊢
  split at h
  · exact absurd h (by simp)
  · next hk =>
    rw [if_neg hk]
    have hlt : (k - rm.firstIdx).toNat < rm.rows.length :=
      (List.getElem?_eq_some_iff.mp h).1
    simp [List.getElem?_set_self (by simpa using hlt)]

/-- Elimination form of `notify_usage`: the updated manager and the
assertion outcome, in terms of the row at the step containing `now`. -/
theorem ResourceManager.notify_usage_some {rm rm' : ResourceManager} {now amount : ℚ}
    {ok : Bool} {r : URow} (hlook : rm.lookup (stepIdx now) = some r)
    (h : rm.notify_usage now amount = some (rm', ok)) :
    rm' = ⟨rm.firstIdx, rm.rows.set (stepIdx now - rm.firstIdx).toNat
            { r with u_used := r.u_used + amount }⟩ ∧
    ok = decide (0 ≤ r.u_free - (r.u_used + amount)) := by
  unfold ResourceManager.notify_usage at h
  rw [hlook] at h
  have hset := ResourceManager.lookup_set { r with u_used := r.u_used + amount } hlook
  simp only [ResourceManager.u_now, hset, Option.map_some] at h
  obtain ⟨h1, h2⟩ := Prod.mk.injEq .. ▸ Option.some.injEq .. ▸ h
  refine ⟨h1.symm, ?_⟩
  simpa using h2.symm

/-- C1: for every admission decision under any policy other than `Naive`,
the real state is unchanged by computing the decision: the live queue's
job list and last-returned job, the real resource manager's capacity table
and the fields of the original arriving job are identical before and
after the call to `_admission_control`, which only receives deep copies of
the job, queue contents and active job plus a freshly built forecast
resource manager (the mutated clones it returns are dropped). -/
theorem admission_call_preserves_real_state
    (fuel : ℕ) (policy : Policy) (u_df : UDf) (st : RealState) (job : Job) (now : ℚ)
    (dec : Bool) (st' : RealState) (job' : Job)
    (hpol : policy ≠ Policy.naive)
    (h : admissionCall fuel policy u_df st job now = some (dec, st', job')) :
    st'.queue.items = st.queue.items ∧
    st'.queue.last_returned_job = st.queue.last_returned_job ∧
    st'.rm = st.rm ∧ job' = job := by
  unfold admissionCall at h
  cases hA : st.queue.active_job now with
  | none => rw [hA] at h; exact absurd h (by simp)
  | some active =>
    rw [hA] at h
    cases hU : st.rm.u_used now with
    | none => rw [hU] at h; exact absurd h (by simp)
    | some uu =>
      rw [hU] at h
      obtain ⟨r, -, heq⟩ := Option.map_eq_some'.mp h
      injection heq with h1 h23
      injection h23 with h2 h3
      exact ⟨h2 ▸ rfl, h2 ▸ rfl, h2 ▸ rfl, h3.symm⟩

/-- Concrete admission decision exercising
`admission_call_preserves_real_state`. -/
def frowW : ForecastRow := ⟨0, 100, 0, 100, 0, 0⟩

/-- Forecast dataset with a single issuance date used by the witnesses. -/
def udfW : UDf := fun t => if t = 0 then some ⟨1, [frowW, frowW, frowW]⟩ else none

/-- Queued job of the witness scenarios. -/
def j1W : Job := { id := 1, arrive_time := 0, size := 50, size_remaining := 50, deadline := 600 }

/-- Candidate job of the witness scenarios. -/
def j2W : Job := { id := 2, arrive_time := 0, size := 50, size_remaining := 50, deadline := 1200 }

/-- Real state of the C1 witness. -/
def stW : RealState := ⟨⟨[j1W], none⟩, ⟨1, [⟨30, 40, 0, 7⟩]⟩⟩

theorem admission_call_preserves_real_state_witness :
    Policy.expected ≠ Policy.naive ∧
    admissionCall 10 Policy.expected udfW stW j2W 0 = some (true, stW, j2W) ∧
    (stW.queue.items = stW.queue.items ∧
     stW.queue.last_returned_job = stW.queue.last_returned_job ∧
     stW.rm = stW.rm ∧ j2W = j2W) :=
  ⟨by decide, by decide,
   admission_call_preserves_real_state 10 Policy.expected udfW stW j2W 0
     true stW j2W (by decide) (by decide)⟩

/-- C3: `Job.run_for` consumes `amount` of the remaining work `r > 0` over
`[start_time, end_time)`: for `amount < r` it returns excess `0`, duration
`end_time - start_time` and leaves `r - amount` remaining; for
`amount ≥ r` it returns excess `amount - r`, finishes the job and returns
the proportional duration rounded to whole seconds; in both cases
`last_processed` becomes `start_time + duration`; `amount ≤ 0` fails the
precondition assertion. -/
theorem run_for_spec (j : Job) (amount s e : ℚ) (hr : 0 < j.size_remaining) :
    (amount ≤ 0 → j.run_for amount s e = none) ∧
    (0 < amount →
      j.run_for amount s e = some
        (if amount < j.size_remaining then 0 else amount - j.size_remaining,
         if amount < j.size_remaining then e - s
         else (roundHalfEven ((e - s) * (j.size_remaining / amount)) : ℚ),
         { j with
             size_remaining :=
               if amount < j.size_remaining then j.size_remaining - amount else 0,
             last_processed := some (s +
               (if amount < j.size_remaining then e - s
                else (roundHalfEven ((e - s) * (j.size_remaining / amount)) : ℚ))) })) := by
  constructor
  · intro hle
    unfold Job.run_for
    rw [if_pos hle]
  · intro hpos
    unfold Job.run_for
    rw [if_neg (not_le.mpr hpos)]
    by_cases hlt : amount < j.size_remaining
    · rw [if_pos (by linarith : (0 : ℚ) < j.size_remaining - amount)]
      simp [hlt]
    · rw [if_neg (by linarith : ¬(0 : ℚ) < j.size_remaining - amount)]
      have hx : -(j.size_remaining - amount) = amount - j.size_remaining := by ring
      simp [hlt, hx]

theorem run_for_spec_witness :
    (0 : ℚ) < j1W.size_remaining ∧
    ((20 : ℚ) ≤ 0 → j1W.run_for 20 0 600 = none) ∧
    ((0 : ℚ) < 20 →
      j1W.run_for 20 0 600 = some
        (if (20 : ℚ) < j1W.size_remaining then 0 else 20 - j1W.size_remaining,
         if (20 : ℚ) < j1W.size_remaining then 600 - 0
         else (roundHalfEven ((600 - 0) * (j1W.size_remaining / 20)) : ℚ),
         { j1W with
             size_remaining :=
               if (20 : ℚ) < j1W.size_remaining then j1W.size_remaining - 20 else 0,
             last_processed := some (0 +
               (if (20 : ℚ) < j1W.size_remaining then 600 - 0
                else (roundHalfEven ((600 - 0) * (j1W.size_remaining / 20)) : ℚ))) })) :=
  ⟨by decide, (run_for_spec j1W 20 0 600 (by decide)).1,
   (run_for_spec j1W 20 0 600 (by decide)).2⟩

/-- Successful `notify_usage` calls preserve the capacity-table invariant. -/
theorem ResourceManager.invariant_notify_usage {rm rm' : ResourceManager}
    {now amount : ℚ} (hinv : rm.invariant)
    (h : rm.notify_usage now amount = some (rm', true)) : rm'.invariant := by
  cases hlook : rm.lookup (stepIdx now) with
  | none => unfold ResourceManager.notify_usage at h; rw [hlook] at h; exact absurd h (by simp)
  | some r =>
    obtain ⟨hrm, hok⟩ := ResourceManager.notify_usage_some hlook h
    intro x hx
    rw [hrm] at hx
    rcases List.mem_or_eq_of_mem_set hx with hmem | hnew
    · exact hinv x hmem
    · subst hnew
      have := of_decide_eq_true hok.symm
      simpa using by linarith

/-- C2: `notify_usage(now, amount)` adds `amount` to the consumed capacity
of the step containing `now` and reports failure of the fatal assertion
whenever the updated free-total remaining is negative; consequently every
sequence of successful calls starting from a table satisfying
`u_free - u_used ≥ 0` everywhere keeps that invariant, so the free
component of `u_now` is never negative. -/
theorem notify_usage_safety :
    (∀ (rm rm' : ResourceManager) (now amount : ℚ) (r : URow) (ok : Bool),
       rm.lookup (stepIdx now) = some r →
       rm.notify_usage now amount = some (rm', ok) →
       rm'.u_used now = some (r.u_used + amount) ∧
       (r.u_free - (r.u_used + amount) < 0 → ok = false)) ∧
    (∀ (rm : ResourceManager) (calls : List (ℚ × ℚ)) (rm' : ResourceManager),
       rm.invariant → notifySeq rm calls = some rm' →
       rm'.invariant ∧ ∀ t p f, rm'.u_now t = some (p, f) → 0 ≤ f) := by
  constructor
  · intro rm rm' now amount r ok hlook h
    obtain ⟨hrm, hok⟩ := ResourceManager.notify_usage_some hlook h
    constructor
    · rw [hrm]
      unfold ResourceManager.u_used
      rw [show (⟨rm.firstIdx, rm.rows.set (stepIdx now - rm.firstIdx).toNat
            { r with u_used := r.u_used + amount }⟩ : ResourceManager).lookup (stepIdx now)
          = some { r with u_used := r.u_used + amount } from
          ResourceManager.lookup_set _ hlook]
      rfl
    · intro hneg
      rw [hok, decide_eq_false_iff_not]
      linarith
  · intro rm calls
    induction calls generalizing rm with
    | nil =>
      intro rm' hinv h
      obtain rfl : rm = rm' := by simpa [notifySeq] using h
      refine ⟨hinv, fun t p f hf => ?_⟩
      unfold ResourceManager.u_now at hf
      obtain ⟨r, hr, heq⟩ := Option.map_eq_some'.mp hf
      injection heq with h1 h2
      have := hinv r (ResourceManager.mem_of_lookup hr)
      rw [← h2]
      linarith
    | cons c rest ih =>
      intro rm' hinv h
      obtain ⟨t, a⟩ := c
      unfold notifySeq at h
      cases hstep : rm.notify_usage t a with
      | none => rw [hstep] at h; exact absurd h (by simp)
      | some p =>
        rw [hstep] at h
        obtain ⟨rm₁, ok⟩ := p
        cases ok with
        | false => exact absurd h (by simp)
        | true =>
          exact ih rm₁ rm' (ResourceManager.invariant_notify_usage hinv hstep) h

/-- Resource manager of the C2 witness: one row with `u_free = 10`. -/
def rmW2 : ResourceManager := ⟨1, [⟨5, 10, 0, 0⟩]⟩

theorem notify_usage_safety_witness :
    (rmW2.lookup (stepIdx 0) = some ⟨5, 10, 0, 0⟩ ∧
     rmW2.notify_usage 0 3 = some (⟨1, [⟨5, 10, 0, 3⟩]⟩, true) ∧
     ((⟨1, [⟨5, 10, 0, 3⟩]⟩ : ResourceManager).u_used 0 = some (0 + 3) ∧
      ((10 : ℚ) - (0 + 3) < 0 → true = false))) ∧
    (rmW2.invariant ∧
     notifySeq rmW2 [(0, 3), (100, 4)] = some ⟨1, [⟨5, 10, 0, 7⟩]⟩ ∧
     (⟨1, [⟨5, 10, 0, 7⟩]⟩ : ResourceManager).invariant) :=
  ⟨⟨by decide, by decide,
    notify_usage_safety.1 rmW2 ⟨1, [⟨5, 10, 0, 3⟩]⟩ 0 3 ⟨5, 10, 0, 0⟩ true
      (by decide) (by decide)⟩,
   ⟨by decide, by decide,
    (notify_usage_safety.2 rmW2 [(0, 3), (100, 4)] ⟨1, [⟨5, 10, 0, 7⟩]⟩
      (by decide) (by decide)).1⟩⟩

/-- Counterexample to C9: a failing `notify_usage` call that leaves the
capacity table exactly unchanged.  The table already violates the
invariant at the step containing `now` and the amount is `0`, so the
assertion fires (the call fails) although adding `0` did not change the
`u_used` entry: the claim that the table is never left unchanged on error
is false at this input. -/
def rmC9 : ResourceManager := ⟨1, [⟨0, -1, 0, 0⟩]⟩

theorem notify_usage_failure_unchanged_table :
    rmC9.notify_usage 0 0 = some (rmC9, false) := by decide

/-- C9 (amended): when `notify_usage(now, amount)` fails the
capacity-ceiling assertion, the `u_used` entry of the step containing
`now` was already incremented by `amount` before the check ran; whenever
`amount ≠ 0` the table therefore differs after the failing call (the
failing call is not atomic). -/
theorem notify_usage_mutates_before_check
    (rm rm' : ResourceManager) (now amount : ℚ) (r : URow)
    (hlook : rm.lookup (stepIdx now) = some r)
    (h : rm.notify_usage now amount = some (rm', false)) :
    rm' = ⟨rm.firstIdx, rm.rows.set (stepIdx now - rm.firstIdx).toNat
            { r with u_used := r.u_used + amount }⟩ ∧
    rm'.u_used now = some (r.u_used + amount) ∧
    (amount ≠ 0 → rm' ≠ rm) := by
  obtain ⟨hrm, -⟩ := ResourceManager.notify_usage_some hlook h
  have hu : rm'.u_used now = some (r.u_used + amount) := by
    rw [hrm]
    unfold ResourceManager.u_used
    rw [show (⟨rm.firstIdx, rm.rows.set (stepIdx now - rm.firstIdx).toNat
          { r with u_used := r.u_used + amount }⟩ : ResourceManager).lookup (stepIdx now)
        = some { r with u_used := r.u_used + amount } from
        ResourceManager.lookup_set _ hlook]
    rfl
  refine ⟨hrm, hu, fun hamount heq => hamount ?_⟩
  have hu0 : rm.u_used now = some r.u_used := by
    unfold ResourceManager.u_used; rw [hlook]; rfl
  rw [heq, hu0] at hu
  injection hu with hu
  linarith

/-- Resource manager of the C9 witness: the assertion fires because
`u_free = 2` cannot cover `u_used = 5`. -/
def rmW9 : ResourceManager := ⟨1, [⟨0, 2, 0, 0⟩]⟩

theorem notify_usage_mutates_before_check_witness :
    rmW9.lookup (stepIdx 0) = some ⟨0, 2, 0, 0⟩ ∧
    rmW9.notify_usage 0 5 = some (⟨1, [⟨0, 2, 0, 5⟩]⟩, false) ∧
    ((⟨1, [⟨0, 2, 0, 5⟩]⟩ : ResourceManager)
        = ⟨rmW9.firstIdx, rmW9.rows.set (stepIdx 0 - rmW9.firstIdx).toNat ⟨0, 2, 0, 0 + 5⟩⟩ ∧
     (⟨1, [⟨0, 2, 0, 5⟩]⟩ : ResourceManager).u_used 0 = some (0 + 5) ∧
     ((5 : ℚ) ≠ 0 → (⟨1, [⟨0, 2, 0, 5⟩]⟩ : ResourceManager) ≠ rmW9)) :=
  ⟨by decide, by decide,
   notify_usage_mutates_before_check rmW9 ⟨1, [⟨0, 2, 0, 5⟩]⟩ 0 5 ⟨0, 2, 0, 0⟩
     (by decide) (by decide)⟩

/-- C4: in a non-speculative scheduler step with an unfinished job, the
capacity granted is the total free capacity `free` instead of the
renewable-limited `freep` exactly when the job's deadline lies strictly
before `now` or the free-renewable capacity over `[now, deadline)` is
below the job's remaining work; in speculative mode the override never
applies and the granted capacity is always `freep`. -/
theorem deadline_override_characterisation
    (j : Job) (rm : ResourceManager) (now fp f : ℚ)
    (hunf : ¬j.finished) (hnow : rm.u_now now = some (fp, f)) :
    (expected_deadline_violation now j rm = true ↔
      (j.deadline < now ∨ (rm.u_in_daterange now j.deadline).1 < j.size_remaining)) ∧
    chosenCapacity false j rm now =
      some (if j.deadline < now ∨ (rm.u_in_daterange now j.deadline).1 < j.size_remaining
            then f else fp) ∧
    chosenCapacity true j rm now = some fp := by
  have hiff : expected_deadline_violation now j rm = true ↔
      (j.deadline < now ∨ (rm.u_in_daterange now j.deadline).1 < j.size_remaining) := by
    unfold expected_deadline_violation
    by_cases h1 : j.deadline < now
    · simp [h1]
    · by_cases h2 : (rm.u_in_daterange now j.deadline).1 < j.size_remaining <;>
        simp [h1, h2]
  refine ⟨hiff, ?_, ?_⟩
  · unfold chosenCapacity
    rw [hnow]
    simp only [Option.map_some', Bool.not_false, Bool.true_and, Option.some.injEq]
    by_cases hv : j.deadline < now ∨ (rm.u_in_daterange now j.deadline).1 < j.size_remaining
    · rw [if_pos (hiff.mpr hv), if_pos hv]
    · rw [if_neg (fun hc => hv (hiff.mp hc)), if_neg hv]
  · unfold chosenCapacity
    rw [hnow]
    simp

/-- Job of the C4 witness: its deadline equals `now`, so the renewable
forecast over the empty range cannot cover the remaining work and the
override grants the full free capacity. -/
def jW4 : Job := { id := 9, arrive_time := 0, size := 5, size_remaining := 5, deadline := 0 }

/-- Resource manager of the C4 witness. -/
def rmW4 : ResourceManager := ⟨1, [⟨3, 7, 0, 0⟩]⟩

theorem deadline_override_characterisation_witness :
    ¬jW4.finished ∧ rmW4.u_now 0 = some (3, 7) ∧
    ((expected_deadline_violation 0 jW4 rmW4 = true ↔
       (jW4.deadline < 0 ∨ (rmW4.u_in_daterange 0 jW4.deadline).1 < jW4.size_remaining)) ∧
     chosenCapacity false jW4 rmW4 0 =
       some (if jW4.deadline < 0 ∨ (rmW4.u_in_daterange 0 jW4.deadline).1 < jW4.size_remaining
             then 7 else 3) ∧
     chosenCapacity true jW4 rmW4 0 = some 3) :=
  ⟨by decide, by decide,
   deadline_override_characterisation jW4 rmW4 0 3 7 (by decide) (by decide)⟩

/-- C10: when the chosen capacity of the current step is not positive, the
scheduler idles until the next step boundary without consuming work or
touching the resource manager; not simulated, it first stamps the job's
`last_processed` with the current time, while in speculative mode the job
is left entirely unchanged. -/
theorem exec_idle_stamps_last_processed
    (simulated : Bool) (j : Job) (rm : ResourceManager) (now c : ℚ)
    (hc : chosenCapacity simulated j rm now = some c) (hle : c ≤ 0) :
    execBody simulated j rm now =
      some (if simulated then j else { j with last_processed := some now },
            rm, round_up_dt now) := by
  unfold chosenCapacity at hc
  unfold execBody
  cases hnow : rm.u_now now with
  | none => rw [hnow] at hc; exact absurd hc (by simp)
  | some uf =>
    obtain ⟨fp, f⟩ := uf
    rw [hnow] at hc
    simp only [Option.map_some', Option.some.injEq] at hc
    dsimp only
    rw [if_neg (not_lt.mpr (hc.le.trans hle))]

/-- Resource manager of the C10 witness: no renewable-powered capacity
free at the current step, so the speculative scheduler idles. -/
def rmW10 : ResourceManager := ⟨1, [⟨0, 7, 0, 0⟩]⟩

theorem exec_idle_stamps_last_processed_witness :
    chosenCapacity true jW4 rmW10 0 = some 0 ∧ (0 : ℚ) ≤ 0 ∧
    execBody true jW4 rmW10 0 = some (if true then jW4 else { jW4 with last_processed := some 0 },
      rmW10, round_up_dt 0) :=
  ⟨by decide, by decide,
   exec_idle_stamps_last_processed true jW4 rmW10 0 0 (by decide) (by decide)⟩

/-- C6: an admission decision under a non-`Naive` policy whose
candidate-inclusive queue (active job included) demands more remaining
work than the forecast free-renewable capacity over
`[start_time, last job's deadline)` minus the already-used capacity is
rejected immediately; the conclusion holds for every fuel value, so the
nested simulation is never consulted. -/
theorem admission_fast_reject
    (fuel : ℕ) (new_job : Job) (queued : List Job) (active : Option Job)
    (now iu : ℚ) (policy : Policy) (u_df : UDf)
    (qj : List Job) (t0 iu' : ℚ) (frm : ResourceManager) (lastJ : Job)
    (hprep : admissionPrep new_job queued active now iu = some (qj, t0, iu'))
    (hpred : u_pred u_df policy (round_down_dt t0) iu' = some frm)
    (hlast : qj.getLast? = some lastJ)
    (hrej : (qj.map fun j => j.size_remaining).sum >
      (frm.u_in_daterange t0 lastJ.deadline).1 - iu') :
    admission_control fuel new_job queued active now iu policy u_df
      = some (false, qj, frm) := by
  have hne : qj ≠ [] := by
    intro hnil; rw [hnil] at hlast; exact absurd hlast (by simp)
  unfold admission_control
  rw [hprep]
  dsimp only
  unfold admissionDecide
  rw [hpred]
  dsimp only
  rw [hlast, List.head?_eq_head hne]
  dsimp only
  rw [if_pos hrej]

/-- Rejected candidate of the C6 witness: it alone asks for 1000 mch
although at most 200 mch of renewable forecast are available. -/
def jW6 : Job := { id := 4, arrive_time := 0, size := 1000, size_remaining := 1000, deadline := 1200 }

theorem admission_fast_reject_witness :
    admissionPrep jW6 [] none 0 0 = some ([jW6], 0, 0) ∧
    u_pred udfW Policy.expected (round_down_dt 0) 0
      = some ⟨1, [⟨100, 100, 100, 0⟩, ⟨100, 100, 100, 0⟩, ⟨100, 100, 100, 0⟩]⟩ ∧
    [jW6].getLast? = some jW6 ∧
    (([jW6].map fun j => j.size_remaining).sum >
      ((⟨1, [⟨100, 100, 100, 0⟩, ⟨100, 100, 100, 0⟩, ⟨100, 100, 100, 0⟩]⟩ :
        ResourceManager).u_in_daterange 0 jW6.deadline).1 - 0) ∧
    admission_control 0 jW6 [] none 0 0 Policy.expected udfW
      = some (false, [jW6],
          ⟨1, [⟨100, 100, 100, 0⟩, ⟨100, 100, 100, 0⟩, ⟨100, 100, 100, 0⟩]⟩) :=
  ⟨by decide, by decide, by decide, by decide,
   admission_fast_reject 0 jW6 [] none 0 0 Policy.expected udfW
     [jW6] 0 0 ⟨1, [⟨100, 100, 100, 0⟩, ⟨100, 100, 100, 0⟩, ⟨100, 100, 100, 0⟩]⟩ jW6
     (by decide) (by decide) (by decide) (by decide)⟩

/-- C7: an admission decision under a non-`Naive` policy in which the
fast-reject aggregate test passes and every job of the candidate-inclusive
queue (the copied active job at the front included) carries the same
deadline is accepted immediately; the conclusion holds for every fuel
value, so the nested simulation is never consulted. -/
theorem admission_fast_accept
    (fuel : ℕ) (new_job : Job) (queued : List Job) (active : Option Job)
    (now iu : ℚ) (policy : Policy) (u_df : UDf)
    (qj : List Job) (t0 iu' : ℚ) (frm : ResourceManager) (lastJ : Job) (d : ℚ)
    (hprep : admissionPrep new_job queued active now iu = some (qj, t0, iu'))
    (hpred : u_pred u_df policy (round_down_dt t0) iu' = some frm)
    (hlast : qj.getLast? = some lastJ)
    (hnorej : ¬((qj.map fun j => j.size_remaining).sum >
      (frm.u_in_daterange t0 lastJ.deadline).1 - iu'))
    (hsame : ∀ j ∈ qj, j.deadline = d) :
    admission_control fuel new_job queued active now iu policy u_df
      = some (true, qj, frm) := by
  have hne : qj ≠ [] := by
    intro hnil; rw [hnil] at hlast; exact absurd hlast (by simp)
  unfold admission_control
  rw [hprep]
  dsimp only
  unfold admissionDecide
  rw [hpred]
  dsimp only
  rw [hlast, List.head?_eq_head hne]
  dsimp only
  rw [if_neg hnorej, if_pos]
  rw [hsame _ (qj.head_mem hne), hsame _ (List.mem_of_getLast?_eq_some hlast)]

/-- Accepted candidate of the C7 witness. -/
def jW7 : Job := { id := 5, arrive_time := 0, size := 60, size_remaining := 60, deadline := 1200 }

/-- Job already queued in the C7 witness, with the same deadline. -/
def jW7b : Job := { id := 6, arrive_time := 0, size := 80, size_remaining := 80, deadline := 1200 }

theorem admission_fast_accept_witness :
    admissionPrep jW7 [jW7b] none 0 0 = some ([jW7b, jW7], 0, 0) ∧
    u_pred udfW Policy.expected (round_down_dt 0) 0
      = some ⟨1, [⟨100, 100, 100, 0⟩, ⟨100, 100, 100, 0⟩, ⟨100, 100, 100, 0⟩]⟩ ∧
    [jW7b, jW7].getLast? = some jW7 ∧
    ¬((([jW7b, jW7]).map fun j => j.size_remaining).sum >
      ((⟨1, [⟨100, 100, 100, 0⟩, ⟨100, 100, 100, 0⟩, ⟨100, 100, 100, 0⟩]⟩ :
        ResourceManager).u_in_daterange 0 jW7.deadline).1 - 0) ∧
    (∀ j ∈ [jW7b, jW7], j.deadline = 1200) ∧
    admission_control 3 jW7 [jW7b] none 0 0 Policy.expected udfW
      = some (true, [jW7b, jW7],
          ⟨1, [⟨100, 100, 100, 0⟩, ⟨100, 100, 100, 0⟩, ⟨100, 100, 100, 0⟩]⟩) :=
  ⟨by decide, by decide, by decide, by decide, by decide,
   admission_fast_accept 3 jW7 [jW7b] none 0 0 Policy.expected udfW
     [jW7b, jW7] 0 0 ⟨1, [⟨100, 100, 100, 0⟩, ⟨100, 100, 100, 0⟩, ⟨100, 100, 100, 0⟩]⟩
     jW7 1200 (by decide) (by decide) (by decide) (by decide) (by decide)⟩

/-- Rounding down never increases a datetime. -/
theorem round_down_dt_le (t : ℚ) : round_down_dt t ≤ t := by
  unfold round_down_dt
  have h := Int.floor_le (t / stepSecs)
  have hs : (0 : ℚ) < stepSecs := by norm_num [stepSecs]
  calc stepSecs * (⌊t / stepSecs⌋ : ℚ) ≤ stepSecs * (t / stepSecs) := by
        exact mul_le_mul_of_nonneg_left h (le_of_lt hs)
    _ = t := by field_simp

/-- When `checkJobs` returns `true`, every scanned job finished before its
deadline. -/
theorem checkJobs_true_all {l : List Job} (h : checkJobs l = some true) :
    ∀ j ∈ l, j.finished ∧ j.finished_before_deadline = some true := by
  induction l with
  | nil => intro j hj; cases hj
  | cons a rest ih =>
    unfold checkJobs at h
    by_cases hfin : a.finished
    · rw [if_neg (by simpa using hfin)] at h
      cases hfbd : a.finished_before_deadline with
      | none => rw [hfbd] at h; exact absurd h (by simp)
      | some b =>
        rw [hfbd] at h
        cases b with
        | false => exact absurd h (by simp)
        | true =>
          intro j hj
          rcases List.mem_cons.mp hj with rfl | hmem
          · exact ⟨hfin, hfbd⟩
          · exact ih h j hmem
    · rw [if_pos (by simpa using hfin)] at h
      exact absurd h (by simp)

/-- When `checkJobs` returns `false`, some scanned job misses its
deadline. -/
theorem checkJobs_false_exists {l : List Job} (h : checkJobs l = some false) :
    ∃ j ∈ l, missesDeadline j := by
  induction l with
  | nil => exact absurd h (by simp [checkJobs])
  | cons a rest ih =>
    unfold checkJobs at h
    by_cases hfin : a.finished
    · rw [if_neg (by simpa using hfin)] at h
      cases hfbd : a.finished_before_deadline with
      | none => rw [hfbd] at h; exact absurd h (by simp)
      | some b =>
        rw [hfbd] at h
        cases b with
        | true =>
          obtain ⟨j, hj, hmiss⟩ := ih h
          exact ⟨j, List.mem_cons_of_mem a hj, hmiss⟩
        | false =>
          refine ⟨a, List.mem_cons_self a rest, Or.inr ?_⟩
          unfold Job.finished_before_deadline at hfbd
          rw [if_pos hfin] at hfbd
          cases hlp : a.last_processed with
          | none => rw [hlp] at hfbd; exact absurd hfbd (by simp)
          | some lp =>
            rw [hlp] at hfbd
            simp only [Option.map_some', Option.some.injEq, decide_eq_false_iff_not,
              not_le] at hfbd
            refine ⟨lp, ?_, hfbd⟩
            unfold Job.finish_time
            rw [if_pos hfin, hlp]
    · refine ⟨a, List.mem_cons_self a rest, Or.inl hfin⟩

/-- A finished-on-time job does not miss its deadline. -/
theorem not_missesDeadline_of_ok {j : Job} (hfin : j.finished)
    (hfbd : j.finished_before_deadline = some true) : ¬missesDeadline j := by
  intro hmiss
  rcases hmiss with hunf | ⟨ft, hft, hlt⟩
  · exact hunf hfin
  · unfold Job.finished_before_deadline at hfbd
    rw [if_pos hfin] at hfbd
    unfold Job.finish_time at hft
    rw [if_pos hfin] at hft
    cases hlp : j.last_processed with
    | none => rw [hlp] at hft; exact absurd hft (by simp)
    | some lp =>
      rw [hlp] at hfbd hft
      injection hft with hft
      simp only [Option.map_some', Option.some.injEq, decide_eq_true_eq] at hfbd
      rw [← hft] at hlt
      linarith

/-- The decision of `checkJobs` is `false` exactly when some job in the
scanned list misses its deadline. -/
theorem checkJobs_eq_false_iff {l : List Job} {dec : Bool}
    (h : checkJobs l = some dec) :
    dec = false ↔ ∃ j ∈ l, missesDeadline j := by
  constructor
  · intro hdec; exact checkJobs_false_exists (hdec ▸ h)
  · intro hex
    cases dec with
    | false => rfl
    | true =>
      obtain ⟨j, hj, hmiss⟩ := hex
      obtain ⟨hfin, hfbd⟩ := checkJobs_true_all h j hj
      exact absurd hmiss (not_missesDeadline_of_ok hfin hfbd)

/-- The time reported by `runJob` never exceeds the horizon. -/
theorem runJob_time_le {fuel : ℕ} {simulated : Bool} {j : Job}
    {rm : ResourceManager} {t horizon : ℚ} {j' : Job} {rm' : ResourceManager}
    {t' : ℚ} {halted : Bool}
    (h : runJob fuel simulated j rm t horizon = some (j', rm', t', halted))
    (ht : t ≤ horizon) : t' ≤ horizon := by
  induction fuel generalizing j rm t with
  | zero => exact absurd h (by simp [runJob])
  | succ fuel ih =>
    unfold runJob at h
    by_cases hfin : j.finished
    · rw [if_pos hfin] at h
      injection h with h
      injection h with h1 h
      injection h with h2 h
      injection h with h3 h4
      exact h3 ▸ ht
    · rw [if_neg hfin] at h
      cases hbody : execBody simulated j rm t with
      | none => rw [hbody] at h; exact absurd h (by simp)
      | some res =>
        obtain ⟨j₁, rm₁, t₁⟩ := res
        rw [hbody] at h
        dsimp only at h
        by_cases hhor : horizon ≤ t₁
        · rw [if_pos hhor] at h
          injection h with h
          injection h with h1 h
          injection h with h2 h
          injection h with h3 h4
          exact le_of_eq h3.symm
        · rw [if_neg hhor] at h
          exact ih h (le_of_lt (not_le.mp hhor))

/-- The time reported by the speculative loop never exceeds the horizon. -/
theorem runSpecLoop_time_le {fuel : ℕ} {jobs : List Job} {rm : ResourceManager}
    {t horizon : ℚ} {jobs' : List Job} {rm' : ResourceManager} {t' : ℚ}
    (h : runSpecLoop fuel jobs rm t horizon = some (jobs', rm', t'))
    (ht : t ≤ horizon) : t' ≤ horizon := by
  induction jobs generalizing rm t jobs' rm' t' with
  | nil =>
    unfold runSpecLoop at h
    injection h with h
    injection h with h1 h
    injection h with h2 h3
    exact h3 ▸ ht
  | cons a rest ih =>
    unfold runSpecLoop at h
    cases hrun : runJob fuel true a rm t horizon with
    | none => rw [hrun] at h; exact absurd h (by simp)
    | some res =>
      obtain ⟨j₁, rm₁, t₁, halted⟩ := res
      rw [hrun] at h
      have ht₁ : t₁ ≤ horizon := runJob_time_le hrun ht
      dsimp only at h
      cases halted with
      | true =>
        simp only [if_true] at h
        injection h with h
        injection h with h1 h
        injection h with h2 h3
        exact h3 ▸ ht₁
      | false =>
        simp only [if_false, Bool.false_eq_true] at h
        by_cases hrest : rest.isEmpty
        · rw [if_pos hrest] at h
          injection h with h
          injection h with h1 h
          injection h with h2 h3
          exact h3 ▸ ht₁
        · rw [if_neg hrest] at h
          cases hloop : runSpecLoop fuel rest rm₁ t₁ horizon with
          | none => rw [hloop] at h; exact absurd h (by simp)
          | some res2 =>
            obtain ⟨js₂, rm₂, t₂⟩ := res2
            rw [hloop] at h
            injection h with h
            injection h with h1 h
            injection h with h2 h3
            exact h3 ▸ ih hloop ht₁

/-- Datetimes stay below the next step boundary after rounding down. -/
theorem lt_round_down_dt_add (t : ℚ) : t < round_down_dt t + stepSecs := by
  unfold round_down_dt
  have h := Int.lt_floor_add_one (t / stepSecs)
  have hs : (0 : ℚ) < stepSecs := by norm_num [stepSecs]
  have := (div_lt_iff₀ hs).mp h
  calc t < ((⌊t / stepSecs⌋ : ℚ) + 1) * stepSecs := this
    _ = stepSecs * (⌊t / stepSecs⌋ : ℚ) + stepSecs := by ring

/-- C5: an admission decision (non-`Naive` policy) that passes neither fast
path runs the speculative execution loop over the prepared clone queue and
forecast resource manager for at most `86400` seconds from the
rounded-down start time (the loop also returns by itself once its queue is
empty), and afterwards the candidate is rejected exactly when some job of
the candidate-inclusive clone queue is unfinished or finished strictly
after its own deadline; the reported simulation time never exceeds the
24-hour horizon. -/
theorem admission_speculative_simulation
    (fuel : ℕ) (new_job : Job) (queued : List Job) (active : Option Job)
    (now iu : ℚ) (policy : Policy) (u_df : UDf)
    (qj : List Job) (t0 iu' : ℚ) (frm : ResourceManager) (lastJ firstJ : Job)
    (jobs' : List Job) (frm' : ResourceManager) (t' : ℚ) (dec : Bool)
    (hprep : admissionPrep new_job queued active now iu = some (qj, t0, iu'))
    (hpred : u_pred u_df policy (round_down_dt t0) iu' = some frm)
    (hlast : qj.getLast? = some lastJ) (hhead : qj.head? = some firstJ)
    (hnorej : ¬((qj.map fun j => j.size_remaining).sum >
      (frm.u_in_daterange t0 lastJ.deadline).1 - iu'))
    (hnacc : firstJ.deadline ≠ lastJ.deadline)
    (hsim : runSpecLoop fuel qj frm t0 (round_down_dt t0 + 86400)
      = some (jobs', frm', t'))
    (hchk : checkJobs jobs' = some dec) :
    admission_control fuel new_job queued active now iu policy u_df
      = some (dec, jobs', frm') ∧
    (dec = false ↔ ∃ j ∈ jobs', missesDeadline j) ∧
    t' ≤ round_down_dt t0 + 86400 := by
  refine ⟨?_, checkJobs_eq_false_iff hchk, ?_⟩
  · unfold admission_control
    rw [hprep]
    dsimp only
    unfold admissionDecide
    rw [hpred]
    dsimp only
    rw [hlast, hhead]
    dsimp only
    rw [if_neg hnorej, if_neg hnacc, hsim]
    dsimp only
    rw [hchk]
  · refine runSpecLoop_time_le hsim ?_
    have h1 := lt_round_down_dt_add t0
    have h2 : stepSecs = 600 := rfl
    linarith

/-- Forecast resource manager of the speculative-simulation witness. -/
def frmW : ResourceManager :=
  ⟨1, [⟨100, 100, 100, 0⟩, ⟨100, 100, 100, 0⟩, ⟨100, 100, 100, 0⟩]⟩

/-- Final state of the first witness job: finished after 300 seconds. -/
def j1Wf : Job := { j1W with size_remaining := 0, last_processed := some 300 }

/-- Final state of the candidate witness job: finished at second 600. -/
def j2Wf : Job := { j2W with size_remaining := 0, last_processed := some 600 }

/-- Final forecast table of the speculative-simulation witness. -/
def frmWf : ResourceManager :=
  ⟨1, [⟨100, 100, 100, 100⟩, ⟨100, 100, 100, 0⟩, ⟨100, 100, 100, 0⟩]⟩

theorem admission_speculative_simulation_witness :
    admissionPrep j2W [j1W] none 0 0 = some ([j1W, j2W], 0, 0) ∧
    u_pred udfW Policy.expected (round_down_dt 0) 0 = some frmW ∧
    [j1W, j2W].getLast? = some j2W ∧
    [j1W, j2W].head? = some j1W ∧
    ¬((([j1W, j2W]).map fun j => j.size_remaining).sum >
      (frmW.u_in_daterange 0 j2W.deadline).1 - 0) ∧
    j1W.deadline ≠ j2W.deadline ∧
    runSpecLoop 10 [j1W, j2W] frmW 0 (round_down_dt 0 + 86400)
      = some ([j1Wf, j2Wf], frmWf, 600) ∧
    checkJobs [j1Wf, j2Wf] = some true ∧
    (admission_control 10 j2W [j1W] none 0 0 Policy.expected udfW
       = some (true, [j1Wf, j2Wf], frmWf) ∧
     (true = false ↔ ∃ j ∈ [j1Wf, j2Wf], missesDeadline j) ∧
     (600 : ℚ) ≤ round_down_dt 0 + 86400) :=
  ⟨by decide, by decide, by decide, by decide, by decide, by decide, by decide, by decide,
   admission_speculative_simulation 10 j2W [j1W] none 0 0 Policy.expected udfW
     [j1W, j2W] 0 0 frmW j2W j1W [j1Wf, j2Wf] frmWf 600 true
     (by decide) (by decide) (by decide) (by decide) (by decide) (by decide)
     (by decide) (by decide)⟩

/-- Start of the interval covered by the step with key index `k` (the step
keyed `stepSecs * k` covers `[stepSecs * (k - 1), stepSecs * k)`, since a
timestamp is assigned to its rounded-up key). -/
def stepStart (k : ℤ) : ℚ := stepSecs * ((k : ℚ) - 1)

/-- End of the interval covered by the step with key index `k`. -/
def stepEnd (k : ℤ) : ℚ := stepSecs * (k : ℚ)

/-- Remaining capacity pair (free-renewable, free-total) of the table row
with key index `k`, zero off the table. -/
def remPair (rm : ResourceManager) (k : ℤ) : ℚ × ℚ :=
  match rm.lookup k with
  | some r => (r.u_freep - r.u_used, r.u_free - r.u_used)
  | none => (0, 0)

/-- Weight of a step in the range sum as the specification words it: the
fraction of the step covered when the range ends inside the step, else 1. -/
def specWeight (stop : ℚ) (k : ℤ) : ℚ :=
  if stop < stepEnd k then (stop - stepStart k) / stepSecs else 1

/-- Table steps whose interval intersects `[start, stop)`. -/
def intersectingSteps (rm : ResourceManager) (start stop : ℚ) : Finset ℤ :=
  (Finset.Icc rm.firstIdx rm.lastIdx).filter fun k =>
    stepStart k < stop ∧ start < stepEnd k

/-- The specification's description of `available_over(start, stop)`: sum,
for both the free-renewable and the free-total column, the remaining
capacity across all steps whose interval intersects `[start, stop)`,
weighting only the final partial step by the fraction of the step covered
by the range. -/
def specAvailableOver (rm : ResourceManager) (start stop : ℚ) : ℚ × ℚ :=
  (∑ k ∈ intersectingSteps rm start stop, specWeight stop k * (remPair rm k).1,
   ∑ k ∈ intersectingSteps rm start stop, specWeight stop k * (remPair rm k).2)

/-- Counterexample to C8 as universally stated: a table that ends before
the step containing `stop`.  The range `[0, 1500)` spans three steps but
the table holds only the first two, both fully covered by the range; the
code still scales its last in-range row by the fraction `1/2` belonging
to the absent third step, so it returns `(2, 2)` although the two
intersecting table steps sum to `(3, 3)`. -/
def rmC8 : ResourceManager := ⟨1, [⟨1, 1, 0, 0⟩, ⟨2, 2, 0, 0⟩]⟩

theorem u_in_daterange_partial_weight_counterexample :
    (0 : ℚ) ≤ 1500 ∧
    rmC8.u_in_daterange 0 1500 = (2, 2) ∧
    specAvailableOver rmC8 0 1500 = (3, 3) ∧
    rmC8.u_in_daterange 0 1500 ≠ specAvailableOver rmC8 0 1500 := by
  refine ⟨by norm_num, by decide, ?_, ?_⟩ <;> decide

/-- Step indices are monotone in time. -/
theorem stepIdx_mono {s t : ℚ} (h : s ≤ t) : stepIdx s ≤ stepIdx t := by
  unfold stepIdx
  have hs : (0 : ℚ) < stepSecs := by norm_num [stepSecs]
  exact add_le_add_right (Int.floor_le_floor (by gcongr)) 1

/-- A timestamp lies before the end of step `k` exactly when its own step
index is at most `k`. -/
theorem lt_stepEnd_iff (t : ℚ) (k : ℤ) : t < stepEnd k ↔ stepIdx t ≤ k := by
  unfold stepEnd stepIdx
  have hs : (0 : ℚ) < stepSecs := by norm_num [stepSecs]
  rw [Int.add_one_le_iff, Int.floor_lt, div_lt_iff₀' hs]

/-- Step `k` starts before a timestamp exactly when `k` is at most the
rounded-up quotient of the timestamp. -/
theorem stepStart_lt_iff (t : ℚ) (k : ℤ) :
    stepStart k < t ↔ k ≤ ⌈t / stepSecs⌉ := by
  unfold stepStart
  have hs : (0 : ℚ) < stepSecs := by norm_num [stepSecs]
  constructor
  · intro h
    have h1 : ((k - 1 : ℤ) : ℚ) < t / stepSecs := by
      rw [lt_div_iff₀ hs]
      push_cast
      linarith [mul_comm stepSecs ((k : ℚ) - 1)]
    have := Int.lt_ceil.mpr h1
    omega
  · intro h
    have h1 : ((k - 1 : ℤ) : ℚ) < t / stepSecs := Int.lt_ceil.mp (by omega)
    rw [lt_div_iff₀ hs] at h1
    push_cast at h1
    linarith [mul_comm ((k : ℚ) - 1) stepSecs]

/-- The step containing `t` starts at the rounded-down timestamp. -/
theorem stepStart_stepIdx (t : ℚ) : stepStart (stepIdx t) = round_down_dt t := by
  unfold stepStart stepIdx round_down_dt
  push_cast
  ring

/-- Length of a fully covered slice. -/
theorem slice_length {rm : ResourceManager} {a b : ℤ}
    (ha : rm.firstIdx ≤ a) (hb : b ≤ rm.lastIdx) :
    (rm.slice a b).length = (b - a + 1).toNat := by
  unfold ResourceManager.slice
  unfold ResourceManager.lastIdx at hb
  rw [max_eq_left ha]
  simp only [List.length_take, List.length_drop]
  omega

/-- Default row used to read a slice entry back through `lookup`. -/
def rowD (rm : ResourceManager) (k : ℤ) : URow :=
  (rm.lookup k).getD ⟨0, 0, 0, 0⟩

/-- A fully covered slice lists exactly the rows with key indices
`a, a + 1, …, b`. -/
theorem slice_ofFn {rm : ResourceManager} {a b : ℤ}
    (ha : rm.firstIdx ≤ a) (hb : b ≤ rm.lastIdx) :
    rm.slice a b = List.ofFn fun i : Fin (b - a + 1).toNat => rowD rm (a + i) := by
  have hb' : b ≤ rm.firstIdx + rm.rows.length - 1 := by
    unfold ResourceManager.lastIdx at hb; omega
  apply List.ext_getElem
  · rw [slice_length ha hb, List.length_ofFn]
  · intro i hi1 hi2
    simp only [List.length_ofFn] at hi2
    rw [List.getElem_ofFn]
    show (rm.slice a b)[i] = rowD rm (a + (i : ℤ))
    have hidx : (a + (i : ℤ) - rm.firstIdx).toNat < rm.rows.length := by omega
    have hrowD : rowD rm (a + (i : ℤ)) = rm.rows[(a + (i : ℤ) - rm.firstIdx).toNat] := by
      unfold rowD ResourceManager.lookup
      rw [if_neg (by omega), List.getElem?_eq_getElem hidx]
      rfl
    rw [hrowD]
    simp only [ResourceManager.slice, max_eq_left ha, List.getElem_take, List.getElem_drop]
    congr 1
    omega

/-- Scaling the last row keeps the leading rows. -/
theorem scaleLastPair_cons (c : ℚ) (p : ℚ × ℚ) {l : List (ℚ × ℚ)} (h : l ≠ []) :
    scaleLastPair c (p :: l) = p :: scaleLastPair c l := by
  cases l with
  | nil => exact absurd rfl h
  | cons q rest => rfl

/-- Column sums of a frame whose last row was scaled, for frames given by
an index function: all but the last index at full weight, the last scaled
by `c`. -/
theorem sumPairs_scaleLastPair_ofFn (c : ℚ) :
    ∀ (n : ℕ) (G : ℕ → ℚ × ℚ), n ≠ 0 →
      sumPairs (scaleLastPair c (List.ofFn fun i : Fin n => G (i : ℕ))) =
        ((∑ i ∈ Finset.range (n - 1), (G i).1) + c * (G (n - 1)).1,
         (∑ i ∈ Finset.range (n - 1), (G i).2) + c * (G (n - 1)).2) := by
  intro n
  induction n with
  | zero => intro G h; exact absurd rfl h
  | succ m ih =>
    intro G _
    cases m with
    | zero =>
      simp [List.ofFn_succ, scaleLastPair, sumPairs]
    | succ m' =>
      rw [List.ofFn_succ]
      have hne : (List.ofFn fun i : Fin (m' + 1) => G ((i.succ : Fin (m' + 2)) : ℕ)) ≠ [] := by
        simp [← List.length_pos_iff_ne_nil]
      rw [scaleLastPair_cons c _ hne]
      have hG : (List.ofFn fun i : Fin (m' + 1) => G ((i.succ : Fin (m' + 2)) : ℕ))
          = List.ofFn fun i : Fin (m' + 1) => (fun j => G (j + 1)) (i : ℕ) := by
        apply List.ext_getElem <;> simp [Fin.val_succ]
      rw [hG]
      have hrec := ih (fun j => G (j + 1)) (by omega)
      unfold sumPairs at hrec ⊢
      simp only [List.map_cons, List.sum_cons]
      have h1 := congrArg Prod.fst hrec
      have h2 := congrArg Prod.snd hrec
      dsimp at h1 h2
      rw [h1, h2]
      have hs1 : ∑ i ∈ Finset.range (m' + 2 - 1), (G i).1
          = (G 0).1 + ∑ i ∈ Finset.range (m' + 1 - 1), (G (i + 1)).1 := by
        rw [show m' + 2 - 1 = (m' + 1 - 1) + 1 from rfl, Finset.sum_range_succ']
        ring
      have hs2 : ∑ i ∈ Finset.range (m' + 2 - 1), (G i).2
          = (G 0).2 + ∑ i ∈ Finset.range (m' + 1 - 1), (G (i + 1)).2 := by
        rw [show m' + 2 - 1 = (m' + 1 - 1) + 1 from rfl, Finset.sum_range_succ']
        ring
      rw [hs1, hs2]
      simp only [Prod.mk.injEq, Fin.val_zero, Nat.add_sub_cancel]
      constructor <;> ring

/-- Sums over an integer interval reindexed from zero. -/
theorem sum_Icc_int {M : Type} [AddCommMonoid M] (f : ℤ → M) (a b : ℤ) :
    (∑ k ∈ Finset.Icc a b, f k)
      = ∑ i ∈ Finset.range (b + 1 - a).toNat, f (a + i) := by
  rw [Int.Icc_eq_finset_map, Finset.sum_map]
  rfl

/-- Splitting off the top element of an integer interval. -/
theorem Icc_int_insert_top {a b : ℤ} (h : a ≤ b) :
    Finset.Icc a b = insert b (Finset.Icc a (b - 1)) := by
  ext k
  simp only [Finset.mem_Icc, Finset.mem_insert]
  omega

/-- Step-interval ends are monotone. -/
theorem stepEnd_mono {k m : ℤ} (h : k ≤ m) : stepEnd k ≤ stepEnd m := by
  unfold stepEnd
  have : (k : ℚ) ≤ (m : ℚ) := by exact_mod_cast h
  have hs : (0 : ℚ) ≤ stepSecs := by norm_num [stepSecs]
  exact mul_le_mul_of_nonneg_left this hs

/-- The end of one step is the start of the next. -/
theorem stepEnd_eq_stepStart_succ (k : ℤ) : stepEnd (k - 1) = stepStart k := by
  unfold stepEnd stepStart
  push_cast
  ring

/-- Under full table coverage, the steps intersecting `[start, stop)` are
exactly the key indices from the step of `start` up to the rounded-up
quotient of `stop`. -/
theorem intersectingSteps_eq (rm : ResourceManager) (start stop : ℚ)
    (hlo : rm.firstIdx ≤ stepIdx start) (hhi : stepIdx stop ≤ rm.lastIdx) :
    intersectingSteps rm start stop
      = Finset.Icc (stepIdx start) ⌈stop / stepSecs⌉ := by
  have hceil : ⌈stop / stepSecs⌉ ≤ stepIdx stop := by
    unfold stepIdx
    exact Int.ceil_le_floor_add_one _
  ext k
  simp only [intersectingSteps, Finset.mem_filter, Finset.mem_Icc,
    stepStart_lt_iff, lt_stepEnd_iff]
  omega

/-- Arithmetic core of the range-sum comparison: the code's slice sum with
the last row scaled by the final-step fraction equals the weighted sum
over the intersecting key indices, for any per-key value `g`. -/
theorem weighted_sum_eq (start stop : ℚ) (hlt : stepIdx start < stepIdx stop)
    (g : ℤ → ℚ) :
    (∑ i ∈ Finset.range ((stepIdx stop - stepIdx start + 1).toNat - 1),
        g (stepIdx start + i))
      + (stop - round_down_dt stop) / stepSecs * g (stepIdx stop)
    = ∑ k ∈ Finset.Icc (stepIdx start) ⌈stop / stepSecs⌉,
        specWeight stop k * g k := by
  have hn1 : (stepIdx stop - stepIdx start + 1).toNat - 1
      = (stepIdx stop - 1 + 1 - stepIdx start).toNat := by omega
  have hrange : ∑ i ∈ Finset.range ((stepIdx stop - stepIdx start + 1).toNat - 1),
      g (stepIdx start + i)
      = ∑ k ∈ Finset.Icc (stepIdx start) (stepIdx stop - 1), g k := by
    rw [hn1, ← sum_Icc_int g (stepIdx start) (stepIdx stop - 1)]
  have hones : ∀ k ∈ Finset.Icc (stepIdx start) (stepIdx stop - 1),
      specWeight stop k * g k = g k := by
    intro k hk
    rw [Finset.mem_Icc] at hk
    have hend : stepEnd k ≤ round_down_dt stop := by
      calc stepEnd k ≤ stepEnd (stepIdx stop - 1) := stepEnd_mono hk.2
        _ = stepStart (stepIdx stop) := stepEnd_eq_stepStart_succ _
        _ = round_down_dt stop := stepStart_stepIdx stop
    have : ¬stop < stepEnd k := not_lt.mpr (hend.trans (round_down_dt_le stop))
    rw [specWeight, if_neg this, one_mul]
  have hs : (0 : ℚ) < stepSecs := by norm_num [stepSecs]
  by_cases hb : stepStart (stepIdx stop) < stop
  · -- the range ends strictly inside its final step, which gets scaled
    have hiS : ⌈stop / stepSecs⌉ = stepIdx stop := by
      refine le_antisymm (by unfold stepIdx; exact Int.ceil_le_floor_add_one _) ?_
      have hfloor : (⌊stop / stepSecs⌋ : ℚ) < stop / stepSecs := by
        rw [lt_div_iff₀ hs]
        have hb' := hb
        rw [stepStart_stepIdx] at hb'
        unfold round_down_dt at hb'
        linarith [mul_comm (⌊stop / stepSecs⌋ : ℚ) stepSecs]
      have h2 : ⌊stop / stepSecs⌋ < ⌈stop / stepSecs⌉ := Int.lt_ceil.mpr hfloor
      unfold stepIdx
      omega
    rw [hiS, Icc_int_insert_top (le_of_lt hlt),
      Finset.sum_insert (by simp only [Finset.mem_Icc]; omega),
      Finset.sum_congr rfl hones, hrange]
    have hw : specWeight stop (stepIdx stop) = (stop - round_down_dt stop) / stepSecs := by
      have hendeq : stepEnd (stepIdx stop) = round_down_dt stop + stepSecs := by
        rw [← stepStart_stepIdx]
        unfold stepEnd stepStart
        push_cast
        ring
      rw [specWeight, if_pos (by rw [hendeq]; exact lt_round_down_dt_add stop),
        stepStart_stepIdx]
    rw [hw]
    ring
  · -- the range ends exactly on the boundary of its final step
    have h1 : stepStart (stepIdx stop) ≤ stop := by
      rw [stepStart_stepIdx]; exact round_down_dt_le stop
    have heq : stepStart (stepIdx stop) = stop := le_antisymm h1 (not_lt.mp hb)
    have hlf : (stop - round_down_dt stop) / stepSecs = 0 := by
      rw [← stepStart_stepIdx, heq]
      simp
    have h2 : stop = stepSecs * ((stepIdx stop : ℚ) - 1) := by
      conv_lhs => rw [← heq]
      unfold stepStart
      rfl
    have hq : stop / stepSecs = ((stepIdx stop - 1 : ℤ) : ℚ) := by
      rw [div_eq_iff (ne_of_gt hs)]
      conv_lhs => rw [h2]
      push_cast
      ring
    have hiS : ⌈stop / stepSecs⌉ = stepIdx stop - 1 := by
      rw [hq, Int.ceil_intCast]
    rw [hiS, Finset.sum_congr rfl hones, hrange, hlf]
    ring

/-- C8 (amended): for every capacity table whose index covers the steps of
both endpoints and timestamps `start ≤ stop`, `u_in_daterange` returns
`(0, 0)` when the range collapses to a single step, and otherwise sums,
for both the free-renewable and the free-total column, the remaining
capacity across all steps whose interval intersects `[start, stop)`,
weighting only the final partial step by the fraction of the step covered
by the range. -/
theorem u_in_daterange_spec
    (rm : ResourceManager) (start stop : ℚ) (hse : start ≤ stop)
    (hlo : rm.firstIdx ≤ stepIdx start) (hhi : stepIdx stop ≤ rm.lastIdx) :
    (stepIdx start = stepIdx stop → rm.u_in_daterange start stop = (0, 0)) ∧
    (stepIdx start ≠ stepIdx stop →
      rm.u_in_daterange start stop = specAvailableOver rm start stop) := by
  have hmono := stepIdx_mono hse
  have hlen := slice_length hlo hhi
  constructor
  · intro h
    have hn : ((rm.slice (stepIdx start) (stepIdx stop)).map
        (fun r => (r.u_freep - r.u_used, r.u_free - r.u_used))).length = 1 := by
      rw [List.length_map, hlen]
      omega
    unfold ResourceManager.u_in_daterange
    dsimp only
    rw [if_neg (by rw [hn]; omega)]
  · intro h
    have hlt : stepIdx start < stepIdx stop := lt_of_le_of_ne hmono h
    unfold ResourceManager.u_in_daterange
    dsimp only
    rw [if_pos (by rw [List.length_map, hlen]; omega)]
    rw [slice_ofFn hlo hhi, List.map_ofFn]
    have hofn : List.ofFn ((fun r : URow => (r.u_freep - r.u_used, r.u_free - r.u_used)) ∘
          fun i : Fin (stepIdx stop - stepIdx start + 1).toNat =>
            rowD rm (stepIdx start + (i : ℕ)))
        = List.ofFn (fun i : Fin (stepIdx stop - stepIdx start + 1).toNat =>
            (fun j : ℕ => remPair rm (stepIdx start + (j : ℤ))) (i : ℕ)) := by
      congr 1
      funext i
      show (fun r : URow => (r.u_freep - r.u_used, r.u_free - r.u_used))
          (rowD rm (stepIdx start + ((i : ℕ) : ℤ))) = remPair rm (stepIdx start + ((i : ℕ) : ℤ))
      unfold rowD remPair
      cases rm.lookup (stepIdx start + ((i : ℕ) : ℤ)) <;> simp
    rw [hofn,
      sumPairs_scaleLastPair_ofFn ((stop - round_down_dt stop) / stepSecs)
        (stepIdx stop - stepIdx start + 1).toNat
        (fun j : ℕ => remPair rm (stepIdx start + (j : ℤ))) (by omega)]
    unfold specAvailableOver
    rw [intersectingSteps_eq rm start stop hlo hhi]
    have hcast : stepIdx start
        + ((((stepIdx stop - stepIdx start + 1).toNat - 1 : ℕ)) : ℤ) = stepIdx stop := by
      omega
    simp only [Prod.mk.injEq]
    constructor
    · rw [hcast]
      exact weighted_sum_eq start stop hlt fun k => (remPair rm k).1
    · rw [hcast]
      exact weighted_sum_eq start stop hlt fun k => (remPair rm k).2

/-- Table, in full coverage of `[100, 1500)`, used by the C8 witness. -/
def rmW8 : ResourceManager :=
  ⟨1, [⟨1, 1, 0, 0⟩, ⟨2, 2, 0, 0⟩, ⟨4, 8, 0, 1⟩]⟩

theorem u_in_daterange_spec_witness :
    (100 : ℚ) ≤ 1500 ∧
    rmW8.firstIdx ≤ stepIdx 100 ∧ stepIdx 1500 ≤ rmW8.lastIdx ∧
    ((stepIdx (100 : ℚ) = stepIdx (1500 : ℚ) → rmW8.u_in_daterange 100 1500 = (0, 0)) ∧
     (stepIdx (100 : ℚ) ≠ stepIdx (1500 : ℚ) →
       rmW8.u_in_daterange 100 1500 = specAvailableOver rmW8 100 1500)) :=
  ⟨by norm_num, by decide, by decide,
   u_in_daterange_spec rmW8 100 1500 (by norm_num) (by decide) (by decide)⟩

end Cucumber
